import Mathlib

/-!
Verification development for the coneko-cli cryptographic identity and
message-authorization core (src/lib/crypto, src/commands/messages,
src/commands/intents).

The JavaScript source is shallowly embedded: plain JS objects become the
inductive type Json below (field lists keep insertion order, as JS objects
do); JSON.stringify with an array replacer is embedded by serJson; byte
buffers become lists of naturals below 256; the external cryptographic
primitives (ed25519 from noble curves, x25519, sha256) are parameters
bundled with exactly the contracts the library documents, and concrete toy
instances of those parameter bundles are supplied for evaluation.
-/

namespace Coneko

/-- A JSON value / plain JavaScript object. Object fields keep insertion
order and may in principle repeat; JS objects never repeat keys, which is
carried as a side condition where a proof needs it. -/
inductive Json where
  | null : Json
  | bool : Bool → Json
  | num : Int → Json
  | str : String → Json
  | arr : List Json → Json
  | obj : List (String × Json) → Json
deriving Repr

mutual

/-- Structural equality of JSON values (field order matters, as it does
for the serialized form). -/
def Json.beq : Json → Json → Bool
  | .null, .null => true
  | .bool a, .bool b => a == b
  | .num a, .num b => a == b
  | .str a, .str b => a == b
  | .arr xs, .arr ys => Json.beqElems xs ys
  | .obj fs, .obj gs => Json.beqFields fs gs
  | _, _ => false
  termination_by structural j => j

/-- Elementwise structural equality of JSON arrays. -/
def Json.beqElems : List Json → List Json → Bool
  | [], [] => true
  | x :: xs, y :: ys => Json.beq x y && Json.beqElems xs ys
  | _, _ => false
  termination_by structural xs => xs

/-- Fieldwise structural equality of JSON objects. -/
def Json.beqFields : List (String × Json) → List (String × Json) → Bool
  | [], [] => true
  | (k, v) :: fs, (l, w) :: gs => k == l && Json.beq v w && Json.beqFields fs gs
  | _, _ => false
  termination_by structural fs => fs

end

mutual

theorem Json.beq_iff_eq : ∀ a b : Json, Json.beq a b = true ↔ a = b
  | .null, .null => by simp [Json.beq]
  | .bool _, .bool _ => by simp [Json.beq]
  | .num _, .num _ => by simp [Json.beq]
  | .str _, .str _ => by simp [Json.beq]
  | .arr xs, .arr ys => by simp [Json.beq, Json.beqElems_iff_eq xs ys]
  | .obj fs, .obj gs => by simp [Json.beq, Json.beqFields_iff_eq fs gs]
  | .null, .bool _ | .null, .num _ | .null, .str _ | .null, .arr _ | .null, .obj _
  | .bool _, .null | .bool _, .num _ | .bool _, .str _ | .bool _, .arr _ | .bool _, .obj _
  | .num _, .null | .num _, .bool _ | .num _, .str _ | .num _, .arr _ | .num _, .obj _
  | .str _, .null | .str _, .bool _ | .str _, .num _ | .str _, .arr _ | .str _, .obj _
  | .arr _, .null | .arr _, .bool _ | .arr _, .num _ | .arr _, .str _ | .arr _, .obj _
  | .obj _, .null | .obj _, .bool _ | .obj _, .num _ | .obj _, .str _ | .obj _, .arr _ => by
    simp [Json.beq]

theorem Json.beqElems_iff_eq : ∀ xs ys : List Json, Json.beqElems xs ys = true ↔ xs = ys
  | [], [] => by simp [Json.beqElems]
  | x :: xs, y :: ys => by
    simp [Json.beqElems, Json.beq_iff_eq x y, Json.beqElems_iff_eq xs ys]
  | [], _ :: _ => by simp [Json.beqElems]
  | _ :: _, [] => by simp [Json.beqElems]

theorem Json.beqFields_iff_eq :
    ∀ fs gs : List (String × Json), Json.beqFields fs gs = true ↔ fs = gs
  | [], [] => by simp [Json.beqFields]
  | (k, v) :: fs, (l, w) :: gs => by
    simp [Json.beqFields, Json.beq_iff_eq v w, Json.beqFields_iff_eq fs gs, and_assoc]
  | [], _ :: _ => by simp [Json.beqFields]
  | _ :: _, [] => by simp [Json.beqFields]

end

instance : DecidableEq Json := fun a b =>
  decidable_of_iff (Json.beq a b = true) (Json.beq_iff_eq a b)

/-- Quote one character the way ECMA-262 QuoteJSONString does for the
characters that occur in this development (no control characters). -/
def quoteChar (c : Char) : String :=
  if c = '"' then "\\\"" else if c = '\\' then "\\\\" else String.singleton c

/-- ECMA-262 QuoteJSONString restricted to strings without control
characters: surround with double quotes, escape quote and backslash. -/
def quote (s : String) : String :=
  "\"" ++ String.join (s.data.map quoteChar) ++ "\""

/-- Render a JSON number. The messages of this program only carry
integral numbers, for which JS renders the plain decimal form. -/
def renderNum (n : Int) : String := toString n

/-- Order the already-serialized fields of an object by the replacer list
K, as SerializeJSONObject does when JSON.stringify is given an array
replacer: iterate the keys of K in order and emit the member for each key
the object actually has. -/
def orderByList (K : List String) (fs : List (String × String)) : List String :=
  K.filterMap (fun k => (fs.lookup k).map (fun sv => quote k ++ ":" ++ sv))

mutual

/-- JSON.stringify(v, K) for an array replacer K (ECMA-262
SerializeJSONProperty): the replacer acts as a key whitelist on every
object at every depth, and the emitted member order of every object is
the order of K. Array elements are always serialized. -/
def serJson (K : List String) : Json → String
  | .null => "null"
  | .bool b => if b then "true" else "false"
  | .num n => renderNum n
  | .str s => quote s
  | .arr es => "[" ++ String.intercalate "," (serElems K es) ++ "]"
  | .obj fs => "\x7b" ++ String.intercalate "," (orderByList K (serFields K fs)) ++ "\x7d"
  termination_by structural j => j

/-- Serialize every element of an array (the replacer list never filters
array elements). -/
def serElems (K : List String) : List Json → List String
  | [] => []
  | e :: es => serJson K e :: serElems K es
  termination_by structural es => es

/-- Serialize the value of every field, keeping the key next to the
rendered value; orderByList then selects and orders members by K. -/
def serFields (K : List String) : List (String × Json) → List (String × String)
  | [] => []
  | (k, v) :: fs => (k, serJson K v) :: serFields K fs
  termination_by structural fs => fs

end

/-- Object.keys: the own enumerable keys of an object in insertion order,
and the empty list for anything that is not an object. -/
def objKeys : Json → List String
  | .obj fs => fs.map Prod.fst
  | _ => []

/-- Lexicographic comparison of character lists by code point; for the
ASCII keys of this program it agrees with the UTF-16 code-unit comparison
that the default Array.prototype.sort comparator performs. -/
def lexLe : List Char → List Char → Bool
  | [], _ => true
  | _ :: _, [] => false
  | a :: as, b :: bs =>
    if a.toNat < b.toNat then true
    else if b.toNat < a.toNat then false
    else lexLe as bs

/-- String comparison as the default JS sort comparator orders ASCII
strings. -/
def strLe (a b : String) : Bool := lexLe a.data b.data

/-- Insert a key into an already sorted key list. -/
def orderedInsert (k : String) : List String → List String
  | [] => [k]
  | x :: xs => if strLe k x then k :: x :: xs else x :: orderedInsert k xs

/-- Array.prototype.sort() with the default comparator, as insertion
sort: a stable sort into code-unit order. -/
def sortKeys : List String → List String
  | [] => []
  | k :: ks => orderedInsert k (sortKeys ks)

/-- The canonical bytes signMessage and verifySignature compute:
JSON.stringify(message, Object.keys(message).sort()) from src/lib/crypto. -/
def canonical (message : Json) : String :=
  serJson (sortKeys (objKeys message)) message

example :
    canonical (.obj [("b", .num 2), ("a", .num 1)]) =
      "\x7b\"a\":1,\"b\":2\x7d" := by decide

example :
    canonical (.obj [("a", .obj [("x", .num 1)]), ("b", .num 2)]) =
      "\x7b\"a\":\x7b\x7d,\"b\":2\x7d" := by decide

/-! ### Order properties of the key sort -/

theorem char_toNat_inj {a b : Char} (h : a.toNat = b.toNat) : a = b := by
  have := congrArg Char.ofNat h
  rwa [Char.ofNat_toNat, Char.ofNat_toNat] at this

theorem lexLe_total : ∀ as bs, lexLe as bs = true ∨ lexLe bs as = true
  | [], _ => .inl rfl
  | _ :: _, [] => .inr rfl
  | a :: as, b :: bs => by
    by_cases h1 : a.toNat < b.toNat
    · left; simp [lexLe, h1]
    · by_cases h2 : b.toNat < a.toNat
      · right; simp [lexLe, h1, h2]
      · rcases lexLe_total as bs with h | h
        · left; simpa [lexLe, h1, h2] using h
        · right; simpa [lexLe, h1, h2] using h

theorem lexLe_antisymm : ∀ as bs, lexLe as bs = true → lexLe bs as = true → as = bs
  | [], [], _, _ => rfl
  | [], _ :: _, _, h2 => by simp [lexLe] at h2
  | _ :: _, [], h1, _ => by simp [lexLe] at h1
  | a :: as, b :: bs, h1, h2 => by
    by_cases hab : a.toNat < b.toNat
    · rw [show lexLe (b :: bs) (a :: as) = false by
        simp only [lexLe, if_neg (Nat.lt_asymm hab), if_pos hab]] at h2
      exact Bool.noConfusion h2
    · by_cases hba : b.toNat < a.toNat
      · rw [show lexLe (a :: as) (b :: bs) = false by
          simp only [lexLe, if_neg hab, if_pos hba]] at h1
        exact Bool.noConfusion h1
      · have hval : a = b := char_toNat_inj (Nat.le_antisymm (Nat.not_lt.mp hba) (Nat.not_lt.mp hab))
        subst hval
        simp only [lexLe, if_neg hab, if_neg hba] at h1 h2
        rw [lexLe_antisymm as bs h1 h2]

theorem lexLe_trans : ∀ as bs cs, lexLe as bs = true → lexLe bs cs = true → lexLe as cs = true
  | [], _, _, _, _ => rfl
  | _ :: _, [], _, h1, _ => Bool.noConfusion h1
  | _ :: _, _ :: _, [], _, h2 => Bool.noConfusion h2
  | a :: as, b :: bs, c :: cs, h1, h2 => by
    rcases Nat.lt_trichotomy a.toNat b.toNat with hab | hab | hab
    · rcases Nat.lt_trichotomy b.toNat c.toNat with hbc | hbc | hbc
      · simp [lexLe, Nat.lt_trans hab hbc]
      · simp [lexLe, hbc ▸ hab]
      · rw [show lexLe (b :: bs) (c :: cs) = false by
          simp only [lexLe, if_neg (Nat.lt_asymm hbc), if_pos hbc]] at h2
        exact Bool.noConfusion h2
    · have heq : a = b := char_toNat_inj hab
      subst heq
      have h1t : lexLe as bs = true := by
        simpa only [lexLe, if_neg (Nat.lt_irrefl a.toNat)] using h1
      rcases Nat.lt_trichotomy a.toNat c.toNat with hac | hac | hac
      · simp [lexLe, hac]
      · have heq2 : a = c := char_toNat_inj hac
        subst heq2
        have h2t : lexLe bs cs = true := by
          simpa only [lexLe, if_neg (Nat.lt_irrefl a.toNat)] using h2
        simp only [lexLe, if_neg (Nat.lt_irrefl a.toNat)]
        exact lexLe_trans as bs cs h1t h2t
      · rw [show lexLe (a :: bs) (c :: cs) = false by
          simp only [lexLe, if_neg (Nat.lt_asymm hac), if_pos hac]] at h2
        exact Bool.noConfusion h2
    · rw [show lexLe (a :: as) (b :: bs) = false by
        simp only [lexLe, if_neg (Nat.lt_asymm hab), if_pos hab]] at h1
      exact Bool.noConfusion h1

theorem string_data_inj {a b : String} (h : a.data = b.data) : a = b := by
  cases a; cases b; simp_all

theorem strLe_total (a b : String) : strLe a b = true ∨ strLe b a = true :=
  lexLe_total a.data b.data

theorem strLe_antisymm {a b : String} (h1 : strLe a b = true) (h2 : strLe b a = true) : a = b :=
  string_data_inj (lexLe_antisymm a.data b.data h1 h2)

theorem strLe_trans {a b c : String} (h1 : strLe a b = true) (h2 : strLe b c = true) :
    strLe a c = true :=
  lexLe_trans a.data b.data c.data h1 h2

/-- The sort order used by sortKeys, as a relation. -/
def keyLe (a b : String) : Prop := strLe a b = true

instance : IsAntisymm String keyLe := ⟨fun _ _ h1 h2 => strLe_antisymm h1 h2⟩

theorem orderedInsert_perm (k : String) : ∀ xs, (orderedInsert k xs).Perm (k :: xs)
  | [] => List.Perm.refl _
  | x :: xs => by
    by_cases h : strLe k x
    · simp [orderedInsert, h]
    · simp only [orderedInsert, if_neg h]
      exact ((orderedInsert_perm k xs).cons x).trans (List.Perm.swap k x xs)

theorem sortKeys_perm : ∀ ks, (sortKeys ks).Perm ks
  | [] => List.Perm.refl _
  | k :: ks => (orderedInsert_perm k (sortKeys ks)).trans ((sortKeys_perm ks).cons k)

theorem mem_orderedInsert {y k : String} {xs : List String}
    (h : y ∈ orderedInsert k xs) : y = k ∨ y ∈ xs :=
  by simpa using (orderedInsert_perm k xs).mem_iff.mp h

theorem orderedInsert_sorted (k : String) {xs : List String}
    (h : xs.Sorted keyLe) : (orderedInsert k xs).Sorted keyLe := by
  induction xs with
  | nil => simp [orderedInsert, List.Sorted]
  | cons x xs ih =>
    rcases List.pairwise_cons.mp h with ⟨hx, hxs⟩
    by_cases hkx : strLe k x
    · simp only [orderedInsert, if_pos hkx]
      refine List.pairwise_cons.mpr ⟨?_, h⟩
      intro y hy
      rcases List.mem_cons.mp hy with rfl | hy
      · exact hkx
      · exact strLe_trans hkx (hx y hy)
    · simp only [orderedInsert, if_neg hkx]
      refine List.pairwise_cons.mpr ⟨?_, ih hxs⟩
      intro y hy
      rcases mem_orderedInsert hy with rfl | hy
      · rcases strLe_total y x with h1 | h1
        · exact absurd h1 hkx
        · exact h1
      · exact hx y hy

theorem sortKeys_sorted : ∀ ks, (sortKeys ks).Sorted keyLe
  | [] => List.Pairwise.nil
  | k :: ks => orderedInsert_sorted k (sortKeys_sorted ks)

/-- Sorting is a function of the key multiset: two key lists that are
permutations of one another sort identically. -/
theorem sortKeys_eq_of_perm {ks1 ks2 : List String} (h : ks1.Perm ks2) :
    sortKeys ks1 = sortKeys ks2 :=
  List.eq_of_perm_of_sorted
    ((sortKeys_perm ks1).trans (h.trans (sortKeys_perm ks2).symm))
    (sortKeys_sorted ks1) (sortKeys_sorted ks2)

/-! ### Insertion-order independence of the canonical serialization -/

theorem lookup_eq_none_iff {β : Type} (k : String) :
    ∀ fs : List (String × β), fs.lookup k = none ↔ k ∉ fs.map Prod.fst := by
  intro fs
  induction fs with
  | nil => simp
  | cons f fs ih =>
    obtain ⟨a, v⟩ := f
    by_cases h : k = a
    · subst h; simp [List.lookup]
    · have hb : (k == a) = false := by simpa using h
      simp [List.lookup, hb, h, ih]

theorem serElems_eq_map (K : List String) : ∀ es, serElems K es = es.map (serJson K)
  | [] => rfl
  | e :: es => by simp [serElems, serElems_eq_map K es]

theorem serFields_lookup (K : List String) :
    ∀ (fs : List (String × Json)) (k : String),
      (serFields K fs).lookup k = (fs.lookup k).map (serJson K)
  | [], _ => rfl
  | (a, v) :: fs, k => by
    by_cases h : k = a
    · subst h; simp [serFields, List.lookup]
    · have hb : (k == a) = false := by simpa using h
      simp [serFields, List.lookup, hb, serFields_lookup K fs k]

/-- Two JSON values that are the same logical object: identical atoms,
arrays equivalent elementwise, objects with the same key set (no
duplicate keys, as JS objects guarantee) and equivalent values under
every key, in any insertion order. -/
inductive JEq : Json → Json → Prop where
  | refl (j : Json) : JEq j j
  | arr {xs ys : List Json} (hlen : xs.length = ys.length)
      (helem : ∀ (i : Nat) (h1 : i < xs.length) (h2 : i < ys.length),
        JEq (xs.get ⟨i, h1⟩) (ys.get ⟨i, h2⟩)) :
      JEq (.arr xs) (.arr ys)
  | obj {fs gs : List (String × Json)}
      (hnd1 : (fs.map Prod.fst).Nodup) (hnd2 : (gs.map Prod.fst).Nodup)
      (hkeys : (fs.map Prod.fst).Perm (gs.map Prod.fst))
      (hval : ∀ k v w, fs.lookup k = some v → gs.lookup k = some w → JEq v w) :
      JEq (.obj fs) (.obj gs)

/-- The serialization under a fixed replacer list is a function of the
logical object: insertion order never reaches the bytes. -/
theorem serJson_congr {m1 m2 : Json} (h : JEq m1 m2) :
    ∀ K, serJson K m1 = serJson K m2 := by
  induction h with
  | refl j => intro K; rfl
  | @arr xs ys hlen helem ih =>
    intro K
    have hmap : List.map (serJson K) xs = List.map (serJson K) ys := by
      apply List.ext_get (by simpa using hlen)
      intro i h1 h2
      simp only [List.get_eq_getElem, List.getElem_map]
      exact ih i (by simpa using h1) (by simpa using h2) K
    simp only [serJson, serElems_eq_map, hmap]
  | @obj fs gs hnd1 hnd2 hkeys hval ih =>
    intro K
    have hlk : ∀ k : String,
        Option.map (serJson K) (fs.lookup k) = Option.map (serJson K) (gs.lookup k) := by
      intro k
      rcases h1 : fs.lookup k with _ | v
      · rcases h2 : gs.lookup k with _ | w
        · rfl
        · exfalso
          have hk1 := (lookup_eq_none_iff k fs).mp h1
          have hk2 : k ∈ gs.map Prod.fst := by
            by_contra hk2
            rw [(lookup_eq_none_iff k gs).mpr hk2] at h2
            exact Option.noConfusion h2
          exact hk1 (hkeys.mem_iff.mpr hk2)
      · rcases h2 : gs.lookup k with _ | w
        · exfalso
          have hk2 := (lookup_eq_none_iff k gs).mp h2
          have hk1 : k ∈ fs.map Prod.fst := by
            by_contra hk1
            rw [(lookup_eq_none_iff k fs).mpr hk1] at h1
            exact Option.noConfusion h1
          exact hk2 (hkeys.mem_iff.mp hk1)
        · simp only [Option.map]
          rw [ih k v w h1 h2 K]
    have hfm :
        List.filterMap
            (fun k => ((serFields K fs).lookup k).map (fun sv => quote k ++ ":" ++ sv)) K =
          List.filterMap
            (fun k => ((serFields K gs).lookup k).map (fun sv => quote k ++ ":" ++ sv)) K := by
      apply List.filterMap_congr
      intro k _
      rw [serFields_lookup, serFields_lookup, hlk k]
    simp only [serJson, orderByList, hfm]

/-- The key lists of two logically equal objects are permutations, so the
whitelist computed from either is the same. -/
theorem objKeys_perm {m1 m2 : Json} (h : JEq m1 m2) : (objKeys m1).Perm (objKeys m2) := by
  cases h with
  | refl j => exact List.Perm.refl _
  | arr hlen helem => exact List.Perm.refl _
  | obj hnd1 hnd2 hkeys hval => exact hkeys

/-- Canonicalization is insertion-order independent: two messages that
are the same logical object canonicalize to identical bytes. -/
theorem canonical_congr {m1 m2 : Json} (h : JEq m1 m2) : canonical m1 = canonical m2 := by
  unfold canonical
  rw [sortKeys_eq_of_perm (objKeys_perm h)]
  exact serJson_congr h _

/-! ### The signing layer (src/lib/crypto signMessage / verifySignature)

The ed25519 primitive comes from the noble curves library, outside this
repository; it enters the embedding as a parameter bundle carrying the
contract that library documents: a signature by the matching private key
verifies over the same bytes; a signature verifies only over the bytes it
signed; and it verifies only under the matching public key. -/

structure SigScheme where
  sign : String → String → String
  pubOf : String → String
  verify : String → String → String → Bool
  verify_sign : ∀ msg priv, verify (sign msg priv) msg (pubOf priv) = true
  verify_inj : ∀ msg msg2 priv, verify (sign msg priv) msg2 (pubOf priv) = true → msg2 = msg
  verify_key : ∀ msg priv pub, pub ≠ pubOf priv → verify (sign msg priv) msg pub = false

/-- signMessage from src/lib/crypto: canonical bytes are
JSON.stringify(message, Object.keys(message).sort()), signed with
ed25519. -/
def signMessage (S : SigScheme) (message : Json) (signingPrivateB64 : String) : String :=
  S.sign (canonical message) signingPrivateB64

/-- verifySignature from src/lib/crypto: the same canonical bytes,
checked with ed25519.verify; the try/catch that maps malformed inputs to
false is absorbed into the total Bool-valued primitive. -/
def verifySignature (S : SigScheme) (message : Json) (signatureB64 publicKeyB64 : String) : Bool :=
  S.verify signatureB64 (canonical message) publicKeyB64

/-- A concrete executable signature scheme satisfying the ed25519
contract, used to evaluate the pipeline on concrete inputs: the signature
is the tag of the key and the signed bytes, and verification recomputes
the tag. -/
def tagSig : SigScheme where
  sign msg priv := priv ++ "|" ++ msg
  pubOf priv := priv
  verify sig msg pub := sig == pub ++ "|" ++ msg
  verify_sign := fun msg priv => by simp
  verify_inj := fun msg msg2 priv h => by
    have heq : priv ++ "|" ++ msg = priv ++ "|" ++ msg2 := by simpa using h
    have hdata := congrArg String.data heq
    simp only [String.data_append] at hdata
    exact (string_data_inj (List.append_cancel_left hdata)).symm
  verify_key := fun msg priv pub hne => by
    simp only
    rw [beq_eq_false_iff_ne]
    intro heq
    apply hne
    have hdata := congrArg String.data heq
    simp only [String.data_append] at hdata
    have h1 := List.append_cancel_right hdata
    have h2 := List.append_cancel_right h1
    exact (string_data_inj h2).symm

/-! ### The send / decrypt pipeline around the signature
(src/commands/messages.js) -/

/-- Field access on a parsed message object. -/
def jGet (m : Json) (k : String) : Option Json :=
  match m with
  | .obj fs => fs.lookup k
  | _ => none

/-- In send, the signature is computed while the message has no signature
field, then assigned, which appends signature as a new last field:
message.signature = signMessage(message, keys.keys.signingPrivate). -/
def attachSignature (m : Json) (sig : String) : Json :=
  match m with
  | .obj fs => .obj (fs ++ [("signature", .str sig)])
  | j => j

/-- The message object that send serializes, encrypts and posts: the
built message with its own signature attached. -/
def sendWireMessage (S : SigScheme) (message : Json) (signingPrivateB64 : String) : Json :=
  attachSignature message (signMessage S message signingPrivateB64)

inductive DecryptOutcome where
  | fatalError : DecryptOutcome
  | unknownSender : DecryptOutcome
  | invalidSignature : DecryptOutcome
  | verified : Json → DecryptOutcome
deriving DecidableEq, Repr

/-- The verification step of the decrypt command in messages.js: after
decryptMessage and JSON.parse (which round-trips the object send
serialized), the sender's public key is looked up in the contacts file
under message.sender.fingerprint, and verifySignature is applied to the
parsed message - with its signature field still present - before the
content is printed. A missing sender object throws and is caught as a
fatal error; an absent contact prints Unknown sender; a false
verification prints Invalid signature and exposes nothing. -/
def decryptVerify (S : SigScheme) (contacts : List (String × String)) (message : Json) :
    DecryptOutcome :=
  match jGet message "sender" with
  | some sender =>
    match jGet sender "fingerprint" with
    | some (.str fp) =>
      match contacts.lookup fp with
      | some publicKey =>
        match jGet message "signature" with
        | some (.str sig) =>
          if verifySignature S message sig publicKey then .verified message
          else .invalidSignature
        | _ => .invalidSignature
      | none => .unknownSender
    | _ => .unknownSender
  | _ => .fatalError

/-- A representative envelope as send builds it (before signing). -/
def msgEnvelope : Json :=
  .obj [("version", .str "1.2"),
        ("sender", .obj [("fingerprint", .str "fp1")]),
        ("content", .obj [("data", .str "hi")])]

/-- Claim C1: the claim states that at verification time the signature
field is removed from the received message before canonicalization, so
that verification of a message signed by send succeeds over bytes that
never include the signature. The code does not strip the field: decrypt
passes the parsed message, signature still attached, to verifySignature,
so the canonical bytes at verification time do include the signature
member and differ from the signed bytes, and verification of an honestly
signed message always fails. Evaluated on a concrete envelope: the
decrypt flow answers Invalid signature for a message send just signed,
while verification over the message with the signature stripped (the
behavior the claim and the specification describe) succeeds. -/
theorem C1_signature_not_stripped_at_verification :
    decryptVerify tagSig [("fp1", tagSig.pubOf "sk")]
        (sendWireMessage tagSig msgEnvelope "sk") = .invalidSignature
  ∧ canonical (sendWireMessage tagSig msgEnvelope "sk") ≠ canonical msgEnvelope
  ∧ verifySignature tagSig msgEnvelope (signMessage tagSig msgEnvelope "sk")
        (tagSig.pubOf "sk") = true := by
  refine ⟨by decide, by decide, by decide⟩

/-- Claim C2, counterexample: canonicalization does not feed every nested
field into the bytes. The replacer array JSON.stringify(message, keys)
whitelists the sorted top-level keys at every depth, so two messages that
differ only in sender.fingerprint - a nested field whose name is not a
top-level key - canonicalize to identical bytes. -/
theorem C2_nested_field_does_not_contribute :
    canonical (.obj [("sender", .obj [("fingerprint", .str "AAAA")]), ("v", .num 1)]) =
      canonical (.obj [("sender", .obj [("fingerprint", .str "BBBB")]), ("v", .num 1)])
  ∧ (Json.obj [("sender", .obj [("fingerprint", .str "AAAA")]), ("v", .num 1)]) ≠
      (Json.obj [("sender", .obj [("fingerprint", .str "BBBB")]), ("v", .num 1)]) := by
  refine ⟨by decide, by decide⟩

/-- Claim C2, amended: canonicalization is deterministic and independent
of field insertion order at every nesting depth - two messages that are
the same logical object produce identical canonical bytes - but the
sorted top-level key list acts as a whitelist at every depth, so a nested
field contributes to the bytes only if its name is also a top-level field
name (the counterexample above); ordering, where fields survive, follows
the sorted top-level keys rather than a per-object recursive sort. -/
theorem C2_canonicalization_order_independent (m1 m2 : Json) (h : JEq m1 m2) :
    canonical m1 = canonical m2 :=
  canonical_congr h

theorem lookup_cons_ne {β : Type} {k a : String} (h : k ≠ a) (v : β) (fs : List (String × β)) :
    List.lookup k ((a, v) :: fs) = List.lookup k fs := by
  have hb : (k == a) = false := beq_eq_false_iff_ne.mpr h
  simp [List.lookup, hb]

theorem JEq_obj_of_lookup_eq {fs gs : List (String × Json)}
    (hnd1 : (fs.map Prod.fst).Nodup) (hnd2 : (gs.map Prod.fst).Nodup)
    (hkeys : (fs.map Prod.fst).Perm (gs.map Prod.fst))
    (hl : ∀ k, fs.lookup k = gs.lookup k) : JEq (.obj fs) (.obj gs) :=
  JEq.obj hnd1 hnd2 hkeys (fun k v w h1 h2 => by
    rw [hl k] at h1
    rw [h1] at h2
    cases h2
    exact JEq.refl v)

/-- Witness for C2: the specification example, canonicalize on
insertion-reordered fields a, b, c. -/
theorem C2_canonicalization_order_independent_witness :
    canonical (.obj [("a", .num 1), ("b", .num 2), ("c", .num 3)]) =
      canonical (.obj [("c", .num 3), ("a", .num 1), ("b", .num 2)]) :=
  C2_canonicalization_order_independent _ _
    (JEq_obj_of_lookup_eq (by decide) (by decide) (by decide) (by
      intro k
      by_cases ha : k = "a"
      · subst ha; decide
      · by_cases hb : k = "b"
        · subst hb; decide
        · by_cases hc : k = "c"
          · subst hc; decide
          · simp [lookup_cons_ne, ha, hb, hc]))

/-- Claim C3, counterexample: a bit-level change to the nested field
sender.fingerprint does not change the canonical bytes (nested fields are
whitelisted away), so the old signature still verifies over the tampered
message, where the claim requires verification to fail. -/
theorem C3_nested_tamper_still_verifies :
    verifySignature tagSig
        (.obj [("sender", .obj [("fingerprint", .str "BBBB")]), ("v", .num 1)])
        (signMessage tagSig
          (.obj [("sender", .obj [("fingerprint", .str "AAAA")]), ("v", .num 1)]) "sk")
        (tagSig.pubOf "sk") = true
  ∧ (Json.obj [("sender", .obj [("fingerprint", .str "BBBB")]), ("v", .num 1)]) ≠
      (Json.obj [("sender", .obj [("fingerprint", .str "AAAA")]), ("v", .num 1)]) := by
  refine ⟨by decide, by decide⟩

/-- Claim C3, amended: the round trip holds - a message signed with a
private key verifies under the matching public key; a tampered message is
rejected exactly when the tampering changes the canonical bytes, which
covers every top-level field change but not a change to a nested field
whose name is not among the top-level keys (counterexample above); and
verification under any other public key fails. -/
theorem C3_sign_verify_roundtrip_and_tamper (S : SigScheme) (m mt : Json) (priv pub : String) :
    verifySignature S m (signMessage S m priv) (S.pubOf priv) = true
  ∧ (canonical mt ≠ canonical m →
      verifySignature S mt (signMessage S m priv) (S.pubOf priv) = false)
  ∧ (pub ≠ S.pubOf priv → verifySignature S m (signMessage S m priv) pub = false) := by
  refine ⟨S.verify_sign (canonical m) priv, ?_, fun h => S.verify_key (canonical m) priv pub h⟩
  intro hne
  cases hv : verifySignature S mt (signMessage S m priv) (S.pubOf priv) with
  | false => rfl
  | true => exact absurd (S.verify_inj (canonical m) (canonical mt) priv hv) hne

/-- Witness for C3: concrete round trip, a top-level tamper rejected, and
a wrong-key verification rejected. -/
theorem C3_sign_verify_roundtrip_and_tamper_witness :
    verifySignature tagSig (.obj [("a", .num 1)])
        (signMessage tagSig (.obj [("a", .num 1)]) "sk") (tagSig.pubOf "sk") = true
  ∧ verifySignature tagSig (.obj [("a", .num 2)])
        (signMessage tagSig (.obj [("a", .num 1)]) "sk") (tagSig.pubOf "sk") = false
  ∧ verifySignature tagSig (.obj [("a", .num 1)])
        (signMessage tagSig (.obj [("a", .num 1)]) "sk") "pk" = false :=
  ⟨(C3_sign_verify_roundtrip_and_tamper tagSig (.obj [("a", .num 1)])
      (.obj [("a", .num 2)]) "sk" "pk").1,
   (C3_sign_verify_roundtrip_and_tamper tagSig (.obj [("a", .num 1)])
      (.obj [("a", .num 2)]) "sk" "pk").2.1 (by decide),
   (C3_sign_verify_roundtrip_and_tamper tagSig (.obj [("a", .num 1)])
      (.obj [("a", .num 2)]) "sk" "pk").2.2 (by decide)⟩

/-! ### Base64 (Node Buffer base64 / base64url)

Key material and ciphertexts cross every interface of src/lib/crypto as
base64 strings (Buffer.from(s, 'base64') / buf.toString('base64')), and
fingerprints as unpadded base64url. The codec is modelled bit-exactly for
byte sequences; on decode, '=' and characters outside the alphabet are
skipped, as the Node decoder skips them. -/

def b64Alphabet : List Char :=
  "ABCDEFGHIJKLMNOPQRSTUVWXYZabcdefghijklmnopqrstuvwxyz0123456789+/".data

def b64urlAlphabet : List Char :=
  "ABCDEFGHIJKLMNOPQRSTUVWXYZabcdefghijklmnopqrstuvwxyz0123456789-_".data

/-- Split byte triples into 6-bit digits, with the standard short final
group for one or two trailing bytes. -/
def b64Digits : List Nat → List Nat
  | [] => []
  | [a] => [a / 4, a % 4 * 16]
  | [a, b] => [a / 4, a % 4 * 16 + b / 16, b % 16 * 4]
  | a :: b :: c :: rest =>
    (a / 4) :: (a % 4 * 16 + b / 16) :: (b % 16 * 4 + c / 64) :: (c % 64) :: b64Digits rest

/-- Number of '=' padding characters for a byte count. -/
def b64PadLen (n : Nat) : Nat := (3 - n % 3) % 3

/-- buf.toString('base64'): standard alphabet with trailing '='
padding. -/
def base64encode (bs : List Nat) : String :=
  ⟨(b64Digits bs).map (fun d => b64Alphabet.getD d 'A') ++
    List.replicate (b64PadLen bs.length) '='⟩

/-- buf.toString('base64url'): url-safe alphabet, and Node emits no
padding for this encoding. -/
def base64urlEncode (bs : List Nat) : String :=
  ⟨(b64Digits bs).map (fun d => b64urlAlphabet.getD d 'A')⟩

/-- Value of one base64 character: standard alphabet, with the
base64url replacements also accepted, everything else (including '=')
skipped, as the Node decoder behaves. -/
def b64DecVal (c : Char) : Option Nat :=
  match b64Alphabet.indexOf? c with
  | some i => some i
  | none => if c = '-' then some 62 else if c = '_' then some 63 else none

/-- Reassemble bytes from 6-bit digits, inverting b64Digits including the
short final group. -/
def b64DecodeCore : List Nat → List Nat
  | d1 :: d2 :: d3 :: d4 :: rest =>
    (d1 * 4 + d2 / 16) :: (d2 % 16 * 16 + d3 / 4) :: (d3 % 4 * 64 + d4) :: b64DecodeCore rest
  | [d1, d2, d3] => [d1 * 4 + d2 / 16, d2 % 16 * 16 + d3 / 4]
  | [d1, d2] => [d1 * 4 + d2 / 16]
  | _ => []

/-- Buffer.from(s, 'base64'). -/
def base64decode (s : String) : List Nat :=
  b64DecodeCore (s.data.filterMap b64DecVal)

theorem b64Digits_lt : ∀ bs, (∀ b ∈ bs, b < 256) → ∀ d ∈ b64Digits bs, d < 64
  | [], _ => by simp [b64Digits]
  | [a], h => by
    have ha := h a (by simp)
    simp only [b64Digits, List.mem_cons, List.not_mem_nil, or_false]
    rintro d (rfl | rfl) <;> omega
  | [a, b], h => by
    have ha := h a (by simp)
    have hb := h b (by simp)
    simp only [b64Digits, List.mem_cons, List.not_mem_nil, or_false]
    rintro d (rfl | rfl | rfl) <;> omega
  | a :: b :: c :: rest, h => by
    have ha := h a (by simp)
    have hb := h b (by simp)
    have hc := h c (by simp)
    have ih := b64Digits_lt rest (fun x hx => h x (by simp [hx]))
    simp only [b64Digits, List.mem_cons]
    rintro d (rfl | rfl | rfl | rfl | hd)
    · omega
    · omega
    · omega
    · omega
    · exact ih d hd

theorem b64DecVal_alphabet : ∀ d, d < 64 → b64DecVal (b64Alphabet.getD d 'A') = some d := by
  decide

theorem b64DecVal_pad : b64DecVal '=' = none := by decide

theorem filterMap_b64_map : ∀ ds : List Nat, (∀ d ∈ ds, d < 64) →
    (ds.map (fun d => b64Alphabet.getD d 'A')).filterMap b64DecVal = ds
  | [], _ => rfl
  | d :: ds, h => by
    have hd := h d (by simp)
    simp only [List.map_cons, List.filterMap_cons, b64DecVal_alphabet d hd]
    rw [filterMap_b64_map ds (fun x hx => h x (by simp [hx]))]

theorem filterMap_b64_pad : ∀ k, (List.replicate k '=').filterMap b64DecVal = []
  | 0 => rfl
  | k + 1 => by
    simp only [List.replicate, List.filterMap_cons, b64DecVal_pad]
    exact filterMap_b64_pad k

theorem b64DecodeCore_digits : ∀ bs, (∀ b ∈ bs, b < 256) → b64DecodeCore (b64Digits bs) = bs
  | [], _ => rfl
  | [a], h => by
    have ha := h a (by simp)
    simp only [b64Digits, b64DecodeCore]
    congr 1
    omega
  | [a, b], h => by
    have ha := h a (by simp)
    have hb := h b (by simp)
    simp only [b64Digits, b64DecodeCore]
    congr 1
    · omega
    · congr 1
      omega
  | a :: b :: c :: rest, h => by
    have ha := h a (by simp)
    have hb := h b (by simp)
    have hc := h c (by simp)
    simp only [b64Digits, b64DecodeCore]
    congr 1
    · omega
    congr 1
    · omega
    congr 1
    · omega
    exact b64DecodeCore_digits rest (fun x hx => h x (by simp [hx]))

/-- Base64 round trip on byte sequences: decoding an encoding gives the
bytes back. -/
theorem base64_roundtrip {bs : List Nat} (h : ∀ b ∈ bs, b < 256) :
    base64decode (base64encode bs) = bs := by
  unfold base64decode base64encode
  simp only [List.filterMap_append, filterMap_b64_pad,
    filterMap_b64_map (b64Digits bs) (b64Digits_lt bs h), List.append_nil]
  exact b64DecodeCore_digits bs h

theorem base64encode_inj {xs ys : List Nat} (hx : ∀ b ∈ xs, b < 256)
    (hy : ∀ b ∈ ys, b < 256) (h : base64encode xs = base64encode ys) : xs = ys := by
  have := congrArg base64decode h
  rwa [base64_roundtrip hx, base64_roundtrip hy] at this

/-! ### UTF-8 (Buffer.from(string) / buf.toString())

Plaintexts enter encryptMessage as JS strings and leave decryptMessage
through buf.toString(); both ends are UTF-8. The encoder is the standard
one; the decoder follows Node on well-formed input and emits U+FFFD for
malformed sequences (Node's finer points on malformed input, such as
overlong forms, are not needed by any claim). -/

/-- UTF-8 encoding of one scalar value (Char never holds a surrogate). -/
def utf8EncodeChar (c : Char) : List Nat :=
  let n := c.toNat
  if n < 128 then [n]
  else if n < 2048 then [192 + n / 64, 128 + n % 64]
  else if n < 65536 then [224 + n / 4096, 128 + n / 64 % 64, 128 + n % 64]
  else [240 + n / 262144, 128 + n / 4096 % 64, 128 + n / 64 % 64, 128 + n % 64]

def utf8EncodeList : List Char → List Nat
  | [] => []
  | c :: cs => utf8EncodeChar c ++ utf8EncodeList cs

/-- Buffer.from(s): the UTF-8 bytes of a string. -/
def utf8Encode (s : String) : List Nat := utf8EncodeList s.data

/-- The replacement character U+FFFD. -/
def uFFFD : Char := Char.ofNat 65533

/-- A UTF-8 continuation byte (high bits 10). -/
def contByte (b : Nat) : Bool := b / 64 == 2

/-- The character of a two-byte sequence: requires a continuation byte,
otherwise U+FFFD. -/
def utf8Char2 (b b2 : Nat) : Char :=
  if contByte b2 then Char.ofNat ((b - 192) * 64 + (b2 - 128)) else uFFFD

/-- The character of a three-byte sequence. -/
def utf8Char3 (b b2 b3 : Nat) : Char :=
  if contByte b2 && contByte b3 then
    Char.ofNat ((b - 224) * 4096 + (b2 - 128) * 64 + (b3 - 128))
  else uFFFD

/-- The character of a four-byte sequence. -/
def utf8Char4 (b b2 b3 b4 : Nat) : Char :=
  if contByte b2 && contByte b3 && contByte b4 then
    Char.ofNat ((b - 240) * 262144 + (b2 - 128) * 4096 + (b3 - 128) * 64 + (b4 - 128))
  else uFFFD

/-! Decode UTF-8 bytes to characters. Well-formed sequences decode
exactly; a malformed or truncated sequence yields one U+FFFD and decoding
resumes after the bytes the lead byte announced (Node resynchronizes at
the next non-continuation byte instead, a difference no claim relies on:
every decoded input in this development is well-formed or differs from a
well-formed one only in ASCII positions). The lookahead for the
continuation bytes is split into one helper per byte so that the
recursion stays structural. -/

mutual

def utf8DecodeList : List Nat → List Char
  | [] => []
  | b :: rest =>
    if b < 128 then Char.ofNat b :: utf8DecodeList rest
    else if b < 192 then uFFFD :: utf8DecodeList rest
    else if b < 224 then utf8Dec2 b rest
    else if b < 240 then utf8Dec3 b rest
    else if b < 248 then utf8Dec4 b rest
    else uFFFD :: utf8DecodeList rest
  termination_by structural bs => bs

def utf8Dec2 (b : Nat) : List Nat → List Char
  | [] => [uFFFD]
  | b2 :: rest2 => utf8Char2 b b2 :: utf8DecodeList rest2
  termination_by structural bs => bs

def utf8Dec3 (b : Nat) : List Nat → List Char
  | [] => [uFFFD]
  | b2 :: rest2 => utf8Dec3b b b2 rest2
  termination_by structural bs => bs

def utf8Dec3b (b b2 : Nat) : List Nat → List Char
  | [] => [uFFFD]
  | b3 :: rest3 => utf8Char3 b b2 b3 :: utf8DecodeList rest3
  termination_by structural bs => bs

def utf8Dec4 (b : Nat) : List Nat → List Char
  | [] => [uFFFD]
  | b2 :: rest2 => utf8Dec4b b b2 rest2
  termination_by structural bs => bs

def utf8Dec4b (b b2 : Nat) : List Nat → List Char
  | [] => [uFFFD]
  | b3 :: rest3 => utf8Dec4c b b2 b3 rest3
  termination_by structural bs => bs

def utf8Dec4c (b b2 b3 : Nat) : List Nat → List Char
  | [] => [uFFFD]
  | b4 :: rest4 => utf8Char4 b b2 b3 b4 :: utf8DecodeList rest4
  termination_by structural bs => bs

end

/-- buf.toString(): decode UTF-8 bytes back to a string. -/
def utf8Decode (bs : List Nat) : String := ⟨utf8DecodeList bs⟩

theorem char_toNat_lt (c : Char) : c.toNat < 1114112 := by
  rcases c.valid with h | h
  · exact Nat.lt_trans h (by norm_num)
  · exact h.2

theorem utf8EncodeChar_bytes_lt (c : Char) : ∀ b ∈ utf8EncodeChar c, b < 256 := by
  have hc := char_toNat_lt c
  unfold utf8EncodeChar
  by_cases h1 : c.toNat < 128
  · simp only [if_pos h1, List.mem_cons, List.not_mem_nil, or_false]
    rintro b rfl
    omega
  · by_cases h2 : c.toNat < 2048
    · simp only [if_neg h1, if_pos h2, List.mem_cons, List.not_mem_nil, or_false]
      rintro b (rfl | rfl) <;> omega
    · by_cases h3 : c.toNat < 65536
      · simp only [if_neg h1, if_neg h2, if_pos h3, List.mem_cons, List.not_mem_nil, or_false]
        rintro b (rfl | rfl | rfl) <;> omega
      · simp only [if_neg h1, if_neg h2, if_neg h3, List.mem_cons, List.not_mem_nil, or_false]
        rintro b (rfl | rfl | rfl | rfl) <;> omega

theorem utf8Encode_bytes_lt (s : String) : ∀ b ∈ utf8Encode s, b < 256 := by
  unfold utf8Encode
  induction s.data with
  | nil => simp [utf8EncodeList]
  | cons c cs ih =>
    simp only [utf8EncodeList, List.mem_append]
    rintro b (hb | hb)
    · exact utf8EncodeChar_bytes_lt c b hb
    · exact ih b hb

theorem utf8_dec_one {n : Nat} (rest : List Nat) (h : n < 128) :
    utf8DecodeList (n :: rest) = Char.ofNat n :: utf8DecodeList rest := by
  rw [utf8DecodeList, if_pos h]

set_option maxRecDepth 8192 in
theorem utf8_dec_two {n : Nat} (rest : List Nat) (h1 : 128 ≤ n) (h2 : n < 2048) :
    utf8DecodeList ((192 + n / 64) :: (128 + n % 64) :: rest) =
      Char.ofNat n :: utf8DecodeList rest := by
  have hb1 : ¬(192 + n / 64 < 128) := by omega
  have hb2 : ¬(192 + n / 64 < 192) := by omega
  have hb3 : 192 + n / 64 < 224 := by omega
  have hq : (128 + n % 64) / 64 = 2 := by omega
  rw [utf8DecodeList, if_neg hb1, if_neg hb2, if_pos hb3, utf8Dec2, utf8Char2]
  simp [contByte, hq]
  congr 1
  omega

set_option maxRecDepth 8192 in
theorem utf8_dec_three {n : Nat} (rest : List Nat) (h1 : 2048 ≤ n) (h2 : n < 65536) :
    utf8DecodeList ((224 + n / 4096) :: (128 + n / 64 % 64) :: (128 + n % 64) :: rest) =
      Char.ofNat n :: utf8DecodeList rest := by
  have hb1 : ¬(224 + n / 4096 < 128) := by omega
  have hb2 : ¬(224 + n / 4096 < 192) := by omega
  have hb3 : ¬(224 + n / 4096 < 224) := by omega
  have hb4 : 224 + n / 4096 < 240 := by omega
  have hq1 : (128 + n / 64 % 64) / 64 = 2 := by omega
  have hq2 : (128 + n % 64) / 64 = 2 := by omega
  rw [utf8DecodeList, if_neg hb1, if_neg hb2, if_neg hb3, if_pos hb4, utf8Dec3, utf8Dec3b,
    utf8Char3]
  simp [contByte, hq1, hq2]
  congr 1
  omega

set_option maxRecDepth 8192 in
theorem utf8_dec_four {n : Nat} (rest : List Nat) (h1 : 65536 ≤ n) (h2 : n < 1114112) :
    utf8DecodeList ((240 + n / 262144) :: (128 + n / 4096 % 64) :: (128 + n / 64 % 64) ::
        (128 + n % 64) :: rest) =
      Char.ofNat n :: utf8DecodeList rest := by
  have hb1 : ¬(240 + n / 262144 < 128) := by omega
  have hb2 : ¬(240 + n / 262144 < 192) := by omega
  have hb3 : ¬(240 + n / 262144 < 224) := by omega
  have hb4 : ¬(240 + n / 262144 < 240) := by omega
  have hb5 : 240 + n / 262144 < 248 := by omega
  have hq1 : (128 + n / 4096 % 64) / 64 = 2 := by omega
  have hq2 : (128 + n / 64 % 64) / 64 = 2 := by omega
  have hq3 : (128 + n % 64) / 64 = 2 := by omega
  rw [utf8DecodeList, if_neg hb1, if_neg hb2, if_neg hb3, if_neg hb4, if_pos hb5, utf8Dec4,
    utf8Dec4b, utf8Dec4c, utf8Char4]
  simp [contByte, hq1, hq2, hq3]
  congr 1
  omega

theorem utf8DecodeList_encodeChar (c : Char) (rest : List Nat) :
    utf8DecodeList (utf8EncodeChar c ++ rest) = c :: utf8DecodeList rest := by
  have hc := char_toNat_lt c
  have hofnat : Char.ofNat c.toNat = c := Char.ofNat_toNat c
  by_cases h1 : c.toNat < 128
  · rw [show utf8EncodeChar c = [c.toNat] by simp [utf8EncodeChar, h1]]
    rw [List.cons_append, List.nil_append, utf8_dec_one rest h1, hofnat]
  · by_cases h2 : c.toNat < 2048
    · rw [show utf8EncodeChar c = [192 + c.toNat / 64, 128 + c.toNat % 64] by
        simp [utf8EncodeChar, h1, h2]]
      simp only [List.cons_append, List.nil_append]
      rw [utf8_dec_two rest (by omega) h2, hofnat]
    · by_cases h3 : c.toNat < 65536
      · rw [show utf8EncodeChar c =
            [224 + c.toNat / 4096, 128 + c.toNat / 64 % 64, 128 + c.toNat % 64] by
          simp [utf8EncodeChar, h1, h2, h3]]
        simp only [List.cons_append, List.nil_append]
        rw [utf8_dec_three rest (by omega) h3, hofnat]
      · rw [show utf8EncodeChar c =
            [240 + c.toNat / 262144, 128 + c.toNat / 4096 % 64, 128 + c.toNat / 64 % 64,
             128 + c.toNat % 64] by
          simp [utf8EncodeChar, h1, h2, h3]]
        simp only [List.cons_append, List.nil_append]
        rw [utf8_dec_four rest (by omega) hc, hofnat]

theorem utf8DecodeList_encodeList : ∀ cs : List Char, utf8DecodeList (utf8EncodeList cs) = cs
  | [] => by simp [utf8EncodeList, utf8DecodeList]
  | c :: cs => by
    rw [utf8EncodeList, utf8DecodeList_encodeChar, utf8DecodeList_encodeList cs]

/-- UTF-8 round trip: decoding the encoding of any string gives the
string back (surrogates cannot occur in Char). -/
theorem utf8_roundtrip (s : String) : utf8Decode (utf8Encode s) = s := by
  unfold utf8Decode utf8Encode
  rw [utf8DecodeList_encodeList]

/-! ### X25519 ECDH and the XOR transform
(src/lib/crypto encryptMessage / decryptMessage)

The x25519 primitive is external (noble curves); it enters as a parameter
bundle with the Diffie-Hellman contract: the shared secret agrees from
both sides, and keys and secrets are byte sequences. The randomly sampled
ephemeral private key of encryptMessage is made an explicit argument, so
one call of the embedded function is one run of the code with that
sample. -/

structure DH where
  getPublicKey : List Nat → List Nat
  getSharedSecret : List Nat → List Nat → List Nat
  shared_comm : ∀ a b, getSharedSecret a (getPublicKey b) = getSharedSecret b (getPublicKey a)
  shared_bytes : ∀ a p, ∀ x ∈ getSharedSecret a p, x < 256
  pub_bytes : ∀ a, ∀ x ∈ getPublicKey a, x < 256

/-- The keystream loop of the code: keystream[i] =
sharedKey[i % sharedKey.length] for i below the plaintext length. -/
def keystreamBytes (sharedKey : List Nat) (n : Nat) : List Nat :=
  (List.range n).map (fun i => sharedKey.getD (i % sharedKey.length) 0)

/-- encryptMessage from src/lib/crypto: fresh ephemeral keypair, ECDH
with the recipient public key, keystream by repeating the shared secret,
ciphertext by XOR; ephemeral public key and ciphertext leave as
base64. -/
def encryptMessage (D : DH) (plaintext : String) (recipientPublicB64 : String)
    (ephemeralPrivate : List Nat) : String × String :=
  let ephemeralPublic := D.getPublicKey ephemeralPrivate
  let recipientPublic := base64decode recipientPublicB64
  let sharedKey := D.getSharedSecret ephemeralPrivate recipientPublic
  let plaintextBytes := utf8Encode plaintext
  let keystream := keystreamBytes sharedKey plaintextBytes.length
  let ciphertext := List.zipWith (fun p k => p ^^^ k) plaintextBytes keystream
  (base64encode ephemeralPublic, base64encode ciphertext)

/-- decryptMessage from src/lib/crypto: recompute the shared secret from
the local private key and the received ephemeral public key, rebuild the
keystream, XOR back, decode as UTF-8. Total: nothing authenticates the
ciphertext. -/
def decryptMessage (D : DH) (encrypted : String × String) (recipientPrivateB64 : String) :
    String :=
  let ephemeralPublic := base64decode encrypted.1
  let recipientPrivate := base64decode recipientPrivateB64
  let ciphertext := base64decode encrypted.2
  let sharedKey := D.getSharedSecret recipientPrivate ephemeralPublic
  let keystream := keystreamBytes sharedKey ciphertext.length
  utf8Decode (List.zipWith (fun c k => c ^^^ k) ciphertext keystream)

theorem keystreamBytes_length (s : List Nat) (n : Nat) : (keystreamBytes s n).length = n := by
  simp [keystreamBytes]

theorem keystreamBytes_bytes {s : List Nat} (h : ∀ x ∈ s, x < 256) (n : Nat) :
    ∀ x ∈ keystreamBytes s n, x < 256 := by
  intro x hx
  simp only [keystreamBytes, List.mem_map] at hx
  obtain ⟨i, _, rfl⟩ := hx
  by_cases hs : s.length = 0
  · rw [List.length_eq_zero.mp hs]
    simp [List.getD]
  · have hlt : i % s.length < s.length := Nat.mod_lt _ (Nat.pos_of_ne_zero hs)
    rw [List.getD_eq_getElem s 0 hlt]
    exact h _ (List.getElem_mem hlt)

theorem nat_xor_lt_256 {a b : Nat} (ha : a < 256) (hb : b < 256) : a ^^^ b < 256 := by
  have := Nat.xor_lt_two_pow (n := 8) (by simpa using ha) (by simpa using hb)
  simpa using this

theorem zipWith_xor_bytes : ∀ (xs ks : List Nat), (∀ x ∈ xs, x < 256) → (∀ x ∈ ks, x < 256) →
    ∀ x ∈ List.zipWith (fun p k => p ^^^ k) xs ks, x < 256
  | [], _, _, _ => by simp
  | _ :: _, [], _, _ => by simp
  | x :: xs, k :: ks, hx, hk => by
    simp only [List.zipWith, List.mem_cons]
    rintro y (rfl | hy)
    · exact nat_xor_lt_256 (hx x (by simp)) (hk k (by simp))
    · exact zipWith_xor_bytes xs ks (fun a ha => hx a (by simp [ha]))
        (fun a ha => hk a (by simp [ha])) y hy

theorem zipWith_xor_cancel : ∀ (xs ks : List Nat), xs.length = ks.length →
    List.zipWith (fun c k => c ^^^ k) (List.zipWith (fun p k => p ^^^ k) xs ks) ks = xs
  | [], [], _ => rfl
  | [], _ :: _, h => by simp at h
  | _ :: _, [], h => by simp at h
  | x :: xs, k :: ks, h => by
    simp only [List.zipWith, List.cons.injEq]
    refine ⟨?_, zipWith_xor_cancel xs ks (by simpa using h)⟩
    rw [Nat.xor_assoc, Nat.xor_self, Nat.xor_zero]

/-- Claim C6: for every plaintext (the unicode cases ride on the UTF-8
round trip, the wire format on the base64 round trip) and every recipient
keypair, decryptMessage inverts encryptMessage: the two ECDH runs agree
on the shared secret, the keystreams coincide, and XOR is an
involution. -/
theorem C6_encrypt_decrypt_roundtrip (D : DH) (p : String)
    (recipientPrivate ephemeralPrivate : List Nat)
    (hpriv : ∀ b ∈ recipientPrivate, b < 256) :
    decryptMessage D
      (encryptMessage D p (base64encode (D.getPublicKey recipientPrivate)) ephemeralPrivate)
      (base64encode recipientPrivate) = p := by
  have hshared := D.shared_bytes ephemeralPrivate (D.getPublicKey recipientPrivate)
  have hpt := utf8Encode_bytes_lt p
  simp only [encryptMessage, decryptMessage]
  rw [base64_roundtrip (D.pub_bytes recipientPrivate)]
  rw [base64_roundtrip (D.pub_bytes ephemeralPrivate)]
  rw [base64_roundtrip hpriv]
  rw [base64_roundtrip (zipWith_xor_bytes _ _ hpt
    (keystreamBytes_bytes hshared (utf8Encode p).length))]
  rw [D.shared_comm recipientPrivate ephemeralPrivate]
  have hlen : (List.zipWith (fun p k => p ^^^ k) (utf8Encode p)
      (keystreamBytes (D.getSharedSecret ephemeralPrivate (D.getPublicKey recipientPrivate))
        (utf8Encode p).length)).length = (utf8Encode p).length := by
    simp [List.length_zipWith, keystreamBytes_length]
  rw [hlen]
  rw [zipWith_xor_cancel _ _ (by simp [keystreamBytes_length])]
  exact utf8_roundtrip p

/-! A concrete executable Diffie-Hellman instance for evaluating the
pipeline: modular exponentiation in a toy group (base 3 modulo 1009),
public keys serialized as two bytes, shared secrets expanded to 32 bytes
as the x25519 secret is 32 bytes. -/

def bytesToNat : List Nat → Nat
  | [] => 0
  | b :: bs => b + 256 * bytesToNat bs

def natToBytes2 (n : Nat) : List Nat := [n % 256, n / 256 % 256]

theorem bytesToNat_natToBytes2 {n : Nat} (h : n < 65536) : bytesToNat (natToBytes2 n) = n := by
  simp only [natToBytes2, bytesToNat]
  omega

def toyDH : DH where
  getPublicKey a := natToBytes2 (3 ^ bytesToNat a % 1009)
  getSharedSecret a p :=
    (List.range 32).map (fun i => (bytesToNat p ^ bytesToNat a % 1009 + i) % 256)
  shared_comm := by
    intro a b
    have key : ∀ x y : Nat,
        bytesToNat (natToBytes2 (3 ^ x % 1009)) ^ y % 1009 = 3 ^ (x * y) % 1009 := by
      intro x y
      rw [bytesToNat_natToBytes2 (by
        have : 3 ^ x % 1009 < 1009 := Nat.mod_lt _ (by norm_num)
        omega)]
      rw [← Nat.pow_mod, ← Nat.pow_mul]
    simp only [key]
    rw [Nat.mul_comm (bytesToNat b) (bytesToNat a)]
  shared_bytes := by
    intro a p x hx
    simp only [List.mem_map] at hx
    obtain ⟨i, _, rfl⟩ := hx
    exact Nat.mod_lt _ (by norm_num)
  pub_bytes := by
    intro a x hx
    simp only [natToBytes2, List.mem_cons, List.not_mem_nil, or_false] at hx
    rcases hx with rfl | rfl <;> exact Nat.mod_lt _ (by norm_num)

/-- Witness for C6: round trip of a multi-byte unicode plaintext and of
the empty string through the concrete instance. -/
theorem C6_encrypt_decrypt_roundtrip_witness :
    decryptMessage toyDH
      (encryptMessage toyDH "Héllo 🙂" (base64encode (toyDH.getPublicKey [2])) [3])
      (base64encode [2]) = "Héllo 🙂"
  ∧ decryptMessage toyDH
      (encryptMessage toyDH "" (base64encode (toyDH.getPublicKey [2])) [3])
      (base64encode [2]) = "" :=
  ⟨C6_encrypt_decrypt_roundtrip toyDH "Héllo 🙂" [2] [3] (by decide),
   C6_encrypt_decrypt_roundtrip toyDH "" [2] [3] (by decide)⟩

/-- The concrete run for claim C4: recipient private key, an encryption
of the plaintext hi, and the same wire object with the lowest bit of the
first ciphertext byte flipped. -/
def c4Encrypted : String × String :=
  encryptMessage toyDH "hi" (base64encode (toyDH.getPublicKey [5])) [7]

def c4Tampered : String × String :=
  (c4Encrypted.1,
   base64encode
     (match base64decode c4Encrypted.2 with
      | x :: rest => (x ^^^ 1) :: rest
      | [] => []))

/-- Claim C4: the claim (and the corrected AEAD design the specification
prescribes) requires decryption of any bit-flipped ciphertext to fail
with a DecryptionError. The code is the XOR scheme the specification
itself flags as the defect to fix: decryptMessage has no authentication,
never fails, and the flipped ciphertext bit comes back as corrupted
plaintext - here the plaintext hi decrypts to ii after a one-bit flip. -/
theorem C4_bit_flip_returns_corrupted_plaintext :
    decryptMessage toyDH c4Tampered (base64encode [5]) = "ii"
  ∧ decryptMessage toyDH c4Tampered (base64encode [5]) ≠ "hi" := by
  refine ⟨by decide, by decide⟩

/-! Claim C8: the ephemeral public key and the ciphertext are functions
of the sampled ephemeral private key alone once the plaintext and the
recipient key are fixed. -/

/-- The keystream a run of encryptMessage uses. -/
def encKeystream (D : DH) (plaintext recipientPublicB64 : String)
    (ephemeralPrivate : List Nat) : List Nat :=
  keystreamBytes (D.getSharedSecret ephemeralPrivate (base64decode recipientPublicB64))
    (utf8Encode plaintext).length

theorem nat_xor_left_cancel {a b c : Nat} (h : a ^^^ b = a ^^^ c) : b = c := by
  have := congrArg (fun x => a ^^^ x) h
  simpa [← Nat.xor_assoc, Nat.xor_self, Nat.zero_xor] using this

theorem zipWith_xor_left_cancel : ∀ (xs k1 k2 : List Nat), xs.length = k1.length →
    xs.length = k2.length →
    List.zipWith (fun p k => p ^^^ k) xs k1 = List.zipWith (fun p k => p ^^^ k) xs k2 →
    k1 = k2
  | [], [], [], _, _, _ => rfl
  | [], _ :: _, _, h1, _, _ => absurd h1 (by simp)
  | [], [], _ :: _, _, h2, _ => absurd h2 (by simp)
  | _ :: _, [], _, h1, _, _ => absurd h1 (by simp)
  | _ :: _, _ :: _, [], _, h2, _ => absurd h2 (by simp)
  | x :: xs, a :: k1, b :: k2, h1, h2, heq => by
    simp only [List.zipWith, List.cons.injEq] at heq
    obtain ⟨hx, hrest⟩ := heq
    rw [nat_xor_left_cancel hx,
      zipWith_xor_left_cancel xs k1 k2 (by simpa using h1) (by simpa using h2) hrest]

/-- A fixed recipient public key for the C8 evaluations. -/
def c8Pub : String := base64encode (natToBytes2 10)

/-- Claim C8, counterexample: for the empty plaintext the two ciphertexts
of two runs are both the empty string, so two calls do not yield
different ciphertexts even though the runs sampled different ephemeral
keys and produced different ephemeral public keys. -/
theorem C8_empty_plaintext_equal_ciphertexts :
    (encryptMessage toyDH "" c8Pub [1]).2 = (encryptMessage toyDH "" c8Pub [2]).2
  ∧ (encryptMessage toyDH "" c8Pub [1]).1 ≠ (encryptMessage toyDH "" c8Pub [2]).1 := by
  refine ⟨by decide, by decide⟩

/-- Claim C8, amended: two runs whose sampled ephemeral private keys give
distinct public points produce distinct ephemeralPublic outputs (the
overwhelmingly likely case for fresh randomness); the ciphertexts differ
whenever the two runs derive keystreams that differ somewhere within the
plaintext length; and for the empty plaintext both ciphertexts are empty
and equal (the counterexample), so non-identical ciphertexts cannot be
promised for every plaintext. -/
theorem C8_two_runs_differ (D : DH) (p pub : String) (r1 r2 : List Nat) :
    (D.getPublicKey r1 ≠ D.getPublicKey r2 →
      (encryptMessage D p pub r1).1 ≠ (encryptMessage D p pub r2).1)
  ∧ (utf8Encode p = [] → (encryptMessage D p pub r1).2 = (encryptMessage D p pub r2).2)
  ∧ (encKeystream D p pub r1 ≠ encKeystream D p pub r2 →
      (encryptMessage D p pub r1).2 ≠ (encryptMessage D p pub r2).2) := by
  refine ⟨?_, ?_, ?_⟩
  · intro hne heq
    simp only [encryptMessage] at heq
    exact hne (base64encode_inj (D.pub_bytes r1) (D.pub_bytes r2) heq)
  · intro hempty
    simp [encryptMessage, hempty]
  · intro hks heq
    apply hks
    simp only [encryptMessage] at heq
    have hpt := utf8Encode_bytes_lt p
    have hb1 := zipWith_xor_bytes _ _ hpt
      (keystreamBytes_bytes (D.shared_bytes r1 (base64decode pub)) (utf8Encode p).length)
    have hb2 := zipWith_xor_bytes _ _ hpt
      (keystreamBytes_bytes (D.shared_bytes r2 (base64decode pub)) (utf8Encode p).length)
    have hct := base64encode_inj hb1 hb2 heq
    simp only [encKeystream]
    exact zipWith_xor_left_cancel (utf8Encode p) _ _
      (keystreamBytes_length _ _).symm (keystreamBytes_length _ _).symm hct

/-- Witness for C8: distinct ephemeral samples give distinct public keys
and, for a nonempty plaintext with differing keystreams, distinct
ciphertexts; the empty-plaintext clause evaluated on the same runs. -/
theorem C8_two_runs_differ_witness :
    (encryptMessage toyDH "hi" c8Pub [1]).1 ≠ (encryptMessage toyDH "hi" c8Pub [2]).1
  ∧ (encryptMessage toyDH "" c8Pub [1]).2 = (encryptMessage toyDH "" c8Pub [2]).2
  ∧ (encryptMessage toyDH "hi" c8Pub [1]).2 ≠ (encryptMessage toyDH "hi" c8Pub [2]).2 :=
  ⟨(C8_two_runs_differ toyDH "hi" c8Pub [1] [2]).1 (by decide),
   (C8_two_runs_differ toyDH "" c8Pub [1] [2]).2.1 (by decide),
   (C8_two_runs_differ toyDH "hi" c8Pub [1] [2]).2.2 (by decide)⟩

/-! ### Fingerprint (src/lib/crypto getFingerprint) -/

/-- The .replace of getFingerprint: strip the maximal run of trailing '='
characters. -/
def stripTrailingEq (s : String) : String :=
  ⟨(s.data.reverse.dropWhile (fun c => c == '=')).reverse⟩

/-- getFingerprint from src/lib/crypto: decode the base64 public key,
hash it (sha256, an external primitive, passed as a parameter), keep the
first 16 bytes, base64url-encode, strip trailing padding. -/
def getFingerprint (hash : List Nat → List Nat) (publicKeyB64 : String) : String :=
  let keyBytes := base64decode publicKeyB64
  let h := hash keyBytes
  stripTrailingEq (base64urlEncode (h.take 16))

/-- The formula of the specification, written against a padded base64url
so that stripping trailing '=' padding is the work the words describe:
base64url(hash(key)[0:16]) with trailing padding stripped. -/
def fingerprintSpec (hash : List Nat → List Nat) (publicKeyB64 : String) : String :=
  stripTrailingEq
    ⟨(b64Digits ((hash (base64decode publicKeyB64)).take 16)).map
        (fun d => b64urlAlphabet.getD d 'A') ++
      List.replicate (b64PadLen ((hash (base64decode publicKeyB64)).take 16).length) '='⟩

theorem dropWhile_replicate_append (k : Nat) (t : List Char) :
    (List.replicate k '=' ++ t).dropWhile (fun c => c == '=') =
      t.dropWhile (fun c => c == '=') := by
  induction k with
  | zero => rfl
  | succ k ih =>
    simp only [List.replicate, List.cons_append, List.dropWhile]
    simp only [beq_self_eq_true]
    exact ih

theorem stripTrailingEq_append_pad (s : List Char) (k : Nat) :
    stripTrailingEq ⟨s ++ List.replicate k '='⟩ = stripTrailingEq ⟨s⟩ := by
  simp only [stripTrailingEq, List.reverse_append, List.reverse_replicate]
  rw [dropWhile_replicate_append]

/-- Claim C9: getFingerprint is pure and deterministic and computes
exactly base64url(sha256(key)[0:16]) with trailing '=' padding stripped
(Node's base64url emits no padding, so the .replace of the code and the
padding strip of the spec formula meet at the same string). -/
theorem C9_fingerprint_deterministic_and_matches_spec (hash : List Nat → List Nat)
    (publicKeyB64 : String) :
    getFingerprint hash publicKeyB64 = fingerprintSpec hash publicKeyB64
  ∧ ∀ k2, publicKeyB64 = k2 → getFingerprint hash publicKeyB64 = getFingerprint hash k2 := by
  constructor
  · unfold getFingerprint fingerprintSpec base64urlEncode
    rw [stripTrailingEq_append_pad]
  · rintro k2 rfl
    rfl

/-! ### The intent registry (src/commands/intents.js removeIntent) -/

/-- A registered intent as stored in config.intents / returned by the
relay intent directory. -/
structure IntentInfo where
  description : String
  privileged : Bool
deriving DecidableEq, Repr

/-- DEFAULT_INTENT.name, the built-in chat intent. -/
def DEFAULT_INTENT_name : String := "chat"

inductive RemoveResult where
  | notFound : RemoveResult
  | cannotRemoveDefault : RemoveResult
  | removed : RemoveResult
deriving DecidableEq, Repr

/-- The delete statement on config.intents. -/
def removeField {β : Type} (name : String) : List (String × β) → List (String × β)
  | [] => []
  | (k, v) :: fs => if k = name then removeField name fs else (k, v) :: removeField name fs

/-- removeIntent, local-config variant of intents.js: Intent not found
when the name is not registered, Cannot remove default intent for the
built-in name, else delete from config.intents and save. The outcome is
paired with the registry as saved (unchanged on both failures). -/
def removeIntentLocal (config : List (String × IntentInfo)) (name : String) :
    RemoveResult × List (String × IntentInfo) :=
  if (config.lookup name).isNone then (.notFound, config)
  else if name = DEFAULT_INTENT_name then (.cannotRemoveDefault, config)
  else (.removed, removeField name config)

/-- removeIntent, relay-backed variant of intents.js: the default-intent
check comes first and returns before any server call or local delete;
otherwise the intent is deleted from the server and the local config. -/
def removeIntentServer (config : List (String × IntentInfo)) (name : String) :
    RemoveResult × List (String × IntentInfo) :=
  if name = DEFAULT_INTENT_name then (.cannotRemoveDefault, config)
  else (.removed, removeField name config)

/-- Claim C10: in both removeIntent variants, removing chat fails - the
registry is returned unchanged and the outcome is never removed -
whatever the registry holds: the local variant answers Intent not found
when chat is not in config.intents and Cannot remove default intent when
it is, the relay-backed variant always answers Cannot remove default
intent. -/
theorem C10_default_intent_permanent (config : List (String × IntentInfo)) :
    (removeIntentLocal config "chat").2 = config
  ∧ (removeIntentLocal config "chat").1 ≠ .removed
  ∧ (removeIntentServer config "chat").2 = config
  ∧ (removeIntentServer config "chat").1 ≠ .removed := by
  refine ⟨?_, ?_, ?_, ?_⟩ <;>
    by_cases h : (List.lookup "chat" config).isNone <;>
      simp [removeIntentLocal, removeIntentServer, DEFAULT_INTENT_name, h]

/-- Witness for C10: a registry that does contain chat next to another
intent, and one that does not. -/
theorem C10_default_intent_permanent_witness :
    (removeIntentLocal [("chat", ⟨"talk", false⟩), ("task", ⟨"work", true⟩)] "chat").2 =
      [("chat", ⟨"talk", false⟩), ("task", ⟨"work", true⟩)]
  ∧ (removeIntentServer [] "chat").2 = [] :=
  ⟨(C10_default_intent_permanent [("chat", ⟨"talk", false⟩), ("task", ⟨"work", true⟩)]).1,
   (C10_default_intent_permanent []).2.2.1⟩

/-! ### Claim C5: what reaches callers before / without verification -/

/-- The record the check command (mail check in the TS sources) builds
under the decrypt option and writes to the polled folder: sender name or
fingerprint, the intents, the content and the humanMessage of the
decrypted message, taken directly from the decrypted payload. No
signature verification occurs anywhere in check; absent fields are
rendered as null here where JS would leave undefined. -/
def checkDecryptedRecord (decryptedMessage : Json) : Json :=
  .obj [
    ("from", (((jGet decryptedMessage "sender").bind (fun s => jGet s "name")).getD
      (((jGet decryptedMessage "sender").bind (fun s => jGet s "fingerprint")).getD
        (.str "unknown")))),
    ("fingerprint", ((jGet decryptedMessage "sender").bind
      (fun s => jGet s "fingerprint")).getD .null),
    ("intents", (jGet decryptedMessage "intents").getD .null),
    ("content", (jGet decryptedMessage "content").getD .null),
    ("humanMessage", ((jGet decryptedMessage "content").bind
      (fun c => jGet c "humanMessage")).getD .null)]

/-- A received message whose signature is garbage (it verifies under no
key of the concrete scheme). -/
def c5Wire : Json :=
  .obj [("version", .str "1.2"),
        ("intents", .arr [.obj [("name", .str "chat")]]),
        ("sender", .obj [("fingerprint", .str "fp1")]),
        ("content", .obj [("data", .str "hi"), ("humanMessage", .str "hello")]),
        ("signature", .str "garbage")]

/-- Claim C5, counterexample: the check ingestion path surfaces content
and intent data of a message whose signature does not verify: the same
message that the decrypt path rejects as Invalid signature is written to
the polled folder with its content, humanMessage and intents as data,
since check never verifies a signature. -/
theorem C5_check_exposes_unverified_content :
    decryptVerify tagSig [("fp1", tagSig.pubOf "sk")] c5Wire = .invalidSignature
  ∧ jGet (checkDecryptedRecord c5Wire) "content" =
      some (.obj [("data", .str "hi"), ("humanMessage", .str "hello")])
  ∧ jGet (checkDecryptedRecord c5Wire) "intents" =
      some (.arr [.obj [("name", .str "chat")]]) := by
  refine ⟨by decide, by decide, by decide⟩

/-- Claim C5, amended: the decrypt command does gate on verification -
it surfaces a message as verified content only when the sender is a
known contact and verifySignature over the parsed message succeeds, and
otherwise yields only an unknown-sender or invalid-signature failure;
but the check/poll ingestion paths write decrypted content and intent
data to the polled folder without any signature verification, so an
unverified message is exposed as content there (counterexample above). -/
theorem C5_decrypt_exposes_only_verified (S : SigScheme)
    (contacts : List (String × String)) (wire : Json) :
    match decryptVerify S contacts wire with
    | .verified m =>
        m = wire ∧ ∃ sender fp pub sig,
          jGet wire "sender" = some sender ∧
          jGet sender "fingerprint" = some (.str fp) ∧
          contacts.lookup fp = some pub ∧
          jGet wire "signature" = some (.str sig) ∧
          verifySignature S wire sig pub = true
    | _ => True := by
  unfold decryptVerify
  cases hs : jGet wire "sender" with
  | none => simp
  | some sender =>
    cases hf : jGet sender "fingerprint" with
    | none => simp [hf]
    | some fpj =>
      cases fpj with
      | str fp =>
        cases hc : contacts.lookup fp with
        | none => simp [hf, hc]
        | some pub =>
          cases hsig : jGet wire "signature" with
          | none => simp [hf, hc, hsig]
          | some sigj =>
            cases sigj with
            | str sig =>
              simp only [hf, hc, hsig]
              by_cases hv : verifySignature S wire sig pub = true
              · simp only [if_pos hv]
                exact ⟨trivial, sender, fp, pub, sig, rfl, hf, hc, rfl, hv⟩
              · simp only [if_neg hv]
            | null => simp [hf, hc, hsig]
            | bool b => simp [hf, hc, hsig]
            | num n => simp [hf, hc, hsig]
            | arr es => simp [hf, hc, hsig]
            | obj fs => simp [hf, hc, hsig]
      | null => simp [hf]
      | bool b => simp [hf]
      | num n => simp [hf]
      | arr es => simp [hf]
      | obj fs => simp [hf]

/-! ### Claim C7: the pre-send intent check and all-or-nothing sends -/

structure AuthResult where
  allowed : Bool
  blocked_intents : List String
deriving DecidableEq, Repr

/-- Modelled from the spec: the relay-side authorize algorithm of
section 4.4, which the v1/intents/check endpoint runs and whose
{allowed, blocked} answer the send command consumes (the relay service
itself is not part of this repository): an undeclared intent is blocked;
a declared intent with privileged false is allowed; a declared intent
with privileged true is allowed only if the recipient granted it to this
sender. -/
def intentAllowed (dir : List (String × IntentInfo)) (grants : List (String × String))
    (sender : String) (name : String) : Bool :=
  match dir.lookup name with
  | none => false
  | some info => if info.privileged then grants.contains (sender, name) else true

/-- Modelled from the spec: the overall answer is allowed only if every
requested intent is individually allowed, with the blocked names
reported. -/
def authorize (dir : List (String × IntentInfo)) (grants : List (String × String))
    (sender : String) (requested : List String) : AuthResult :=
  let blocked := requested.filter (fun name => !intentAllowed dir grants sender name)
  ⟨blocked.isEmpty, blocked⟩

inductive SendOutcome where
  | bounced (blockedIntents : List String) : SendOutcome
  | sent (wire : Json) : SendOutcome
deriving DecidableEq, Repr

/-- send from src/commands/messages.js, after contact resolution, as a
function of the answer to the pre-send intent check: a not-allowed
answer returns the bounced result carrying blocked_intents before the
message is built - nothing is signed, encrypted or posted; an allowed
answer builds and signs the wire message for encryption. -/
def sendJs (S : SigScheme) (intentCheck : AuthResult) (message : Json)
    (signingPrivateB64 : String) : SendOutcome :=
  if !intentCheck.allowed then .bounced intentCheck.blocked_intents
  else .sent (sendWireMessage S message signingPrivateB64)

inductive SendOutcomeTs where
  | bounced : SendOutcomeTs
  | sent (wire : Json) : SendOutcomeTs
deriving DecidableEq, Repr

/-- send in the TypeScript rewrite and its compiled dist form: the same
gating, but the bounced result is only marked bounced - the blocked
names are printed, not returned. -/
def sendTs (S : SigScheme) (intentCheck : AuthResult) (message : Json)
    (signingPrivateB64 : String) : SendOutcomeTs :=
  if !intentCheck.allowed then .bounced
  else .sent (sendWireMessage S message signingPrivateB64)

/-- Claim C7, counterexample: the bounced result of the TS / dist send
carries no blocked intent names - two checks blocked on different
intents return the very same value - where the claim says the bounced
result lists the blocked intent names. -/
theorem C7_dist_send_result_lacks_blocked_names :
    sendTs tagSig ⟨false, ["admin"]⟩ msgEnvelope "sk" = .bounced
  ∧ sendTs tagSig ⟨false, ["task"]⟩ msgEnvelope "sk" =
      sendTs tagSig ⟨false, ["admin"]⟩ msgEnvelope "sk" := by
  refine ⟨by decide, by decide⟩

/-- Claim C7, amended: the overall check answer is allowed exactly when
every requested intent is individually allowed (conjunction, so a
multi-intent send is all-or-nothing); on a not-allowed answer the
messages.js send returns the bounced result with the blocked intent
names and no wire message is produced - nothing is signed, encrypted or
posted; the TS / dist send gates identically but its bounced result only
marks bounced, with the blocked names printed rather than returned. -/
theorem C7_send_all_or_nothing (dir : List (String × IntentInfo))
    (grants : List (String × String)) (sender : String) (requested : List String)
    (S : SigScheme) (message : Json) (signingPrivateB64 : String) :
    ((authorize dir grants sender requested).allowed = true ↔
      ∀ name ∈ requested, intentAllowed dir grants sender name = true)
  ∧ ((authorize dir grants sender requested).allowed = false →
      sendJs S (authorize dir grants sender requested) message signingPrivateB64 =
        .bounced (authorize dir grants sender requested).blocked_intents)
  ∧ (∀ check : AuthResult, check.allowed = false →
      sendTs S check message signingPrivateB64 = .bounced) := by
  refine ⟨?_, ?_, ?_⟩
  · simp only [authorize, List.isEmpty_iff, List.filter_eq_nil_iff]
    constructor
    · intro h name hmem
      have := h name hmem
      simpa using this
    · intro h name hmem
      simp [h name hmem]
  · intro h
    simp [sendJs, h]
  · intro check h
    simp [sendTs, h]

/-- Witness for C7: a directory declaring open chat and privileged admin
with no grants blocks a chat-and-admin send as a whole: the messages.js
send bounces with admin listed, the TS send bounces. -/
theorem C7_send_all_or_nothing_witness :
    sendJs tagSig (authorize [("chat", ⟨"talk", false⟩), ("admin", ⟨"ops", true⟩)] []
        "alice" ["chat", "admin"]) msgEnvelope "sk" =
      .bounced (authorize [("chat", ⟨"talk", false⟩), ("admin", ⟨"ops", true⟩)] []
        "alice" ["chat", "admin"]).blocked_intents
  ∧ sendTs tagSig ⟨false, ["admin"]⟩ msgEnvelope "sk" = .bounced :=
  ⟨(C7_send_all_or_nothing [("chat", ⟨"talk", false⟩), ("admin", ⟨"ops", true⟩)] []
      "alice" ["chat", "admin"] tagSig msgEnvelope "sk").2.1 (by decide),
   (C7_send_all_or_nothing [("chat", ⟨"talk", false⟩), ("admin", ⟨"ops", true⟩)] []
      "alice" ["chat", "admin"] tagSig msgEnvelope "sk").2.2 ⟨false, ["admin"]⟩ rfl⟩

end Coneko
